import Mathlib

/-!
Verification of the scheduling-algorithm repository.

The development embeds the two source files:

* `src/main.py` — the greedy best-fit time scheduler (`MyGreedyScheduler.run`
  over `Task`/`Node` records), modelled in namespace `BestFit`;
* `src/napsack.py` — the capacity-proportional fair allocator (the module's
  scheduling loop over `(id, cost, value)` task tuples and a node dictionary),
  modelled in namespace `Alloc`;

plus, in namespace `Knap`, the 0/1-knapsack selector which the specification
describes but which has no implementation under `src/` (it is modelled from
the spec).

Python floats/ints are modelled as rationals (`ℚ`), so all arithmetic is
exact; `None`-initialised placement fields become `Option` values.
-/

namespace BestFit

/-- Task record from `src/main.py` (`@dataclass Task`): an id, a token count,
and the three placement fields, unset (`none`) until the task is placed. -/
structure Task where
  id : String
  tokens : ℚ
  assigned_node : Option String := none
  start_time : Option ℚ := none
  end_time : Option ℚ := none
deriving DecidableEq, Repr

/-- Node record from `src/main.py` (`@dataclass Node`): name, speed
(tokens per second), uptime (seconds), and the ordered schedule. -/
structure Node where
  name : String
  speed : ℚ
  uptime : ℚ
  schedule : List Task := []
deriving DecidableEq, Repr

/-- `Node.time_used` from `src/main.py`: the end time of the last scheduled
task, or `0` for an empty schedule.  (In the source the last task always has
its `end_time` set; `getD 0` totalises the `Option`.) -/
def Node.time_used (n : Node) : ℚ :=
  match n.schedule.getLast? with
  | none => 0
  | some t => t.end_time.getD 0

/-- `Node.remaining_time` from `src/main.py`. -/
def Node.remaining_time (n : Node) : ℚ :=
  n.uptime - n.time_used

/-- `self.tasks.sort(key=lambda t: t.tokens, reverse=True)` — a stable sort
by descending token count (Python's `list.sort` is stable). -/
def sortTasks (ts : List Task) : List Task :=
  ts.mergeSort (fun a b => decide (b.tokens ≤ a.tokens))

/-- A node is a candidate for a task iff the estimated execution time
`tokens / speed` still fits into the node's uptime
(`node.time_used() + est_time <= node.uptime` in the source). -/
def isCandidate (tokens : ℚ) (n : Node) : Prop :=
  n.time_used + tokens / n.speed ≤ n.uptime

instance (tokens : ℚ) (n : Node) : Decidable (isCandidate tokens n) := by
  unfold isCandidate; infer_instance

/-- The leftover time of a node after hypothetically placing the task:
`node.uptime - (node.time_used() + est_time)` in the source. -/
def leftover (tokens : ℚ) (n : Node) : ℚ :=
  n.uptime - (n.time_used + tokens / n.speed)

/-- The inner `for node in self.nodes` loop of `MyGreedyScheduler.run`:
scan the nodes (carrying the index `k` of the current node), keeping the
index and leftover time of the best node seen so far (`acc`); a candidate
replaces the incumbent only when its leftover is strictly smaller
(`remaining < best_fit_time`). -/
def pickAux (tokens : ℚ) : List Node → Nat → Option (Nat × ℚ) → Option (Nat × ℚ)
  | [], _, acc => acc
  | n :: rest, k, acc =>
    if n.time_used + tokens / n.speed ≤ n.uptime then
      match acc with
      | none => pickAux tokens rest (k + 1) (some (k, n.uptime - (n.time_used + tokens / n.speed)))
      | some (j, br) =>
        if n.uptime - (n.time_used + tokens / n.speed) < br then
          pickAux tokens rest (k + 1) (some (k, n.uptime - (n.time_used + tokens / n.speed)))
        else pickAux tokens rest (k + 1) (some (j, br))
    else pickAux tokens rest (k + 1) acc

/-- Index of the chosen `best_node`, if any. -/
def pickBest (tokens : ℚ) (nodes : List Node) : Option Nat :=
  (pickAux tokens nodes 0 none).map Prod.fst

/-- Placement of a task on a node (`MyGreedyScheduler.run`, the
`if best_node:` branch): `start = time_used`, `end = start + tokens/speed`,
the placement fields are written and the task is appended to the schedule. -/
def placeOn (n : Node) (t : Task) : Node × Task :=
  let s := n.time_used
  let e := s + t.tokens / n.speed
  let t' : Task :=
    { t with start_time := some s, end_time := some e, assigned_node := some n.name }
  ({ n with schedule := n.schedule ++ [t'] }, t')

/-- One iteration of the outer `for task in self.tasks` loop: pick the best
node; if none exists the task is left untouched (unscheduled). -/
def runStep (nodes : List Node) (t : Task) : List Node × Task :=
  match pickBest t.tokens nodes with
  | none => (nodes, t)
  | some i =>
    match nodes[i]? with
    | none => (nodes, t)
    | some n =>
      let p := placeOn n t
      (nodes.set i p.1, p.2)

/-- `MyGreedyScheduler.run`: sort the task list in place by descending
tokens, then place each task in turn.  Returns the final node list and the
final (sorted, field-updated) task list — the post-state of `self.nodes`
and `self.tasks`. -/
def runGreedy (nodes : List Node) (tasks : List Task) : List Node × List Task :=
  (sortTasks tasks).foldl
    (fun acc t =>
      let p := runStep acc.1 t
      (p.1, acc.2 ++ [p.2]))
    (nodes, ([] : List Task))

/-- Specification predicate: the tasks of a schedule run back-to-back
starting at time `s`, each with all three placement fields set to the
node's values (`start = previous end`, `end = start + tokens / speed`,
assigned to node `name`). -/
def chainFrom (name : String) (speed : ℚ) : ℚ → List Task → Prop
  | _, [] => True
  | s, t :: ts =>
    t.assigned_node = some name ∧ t.start_time = some s ∧
      t.end_time = some (s + t.tokens / speed) ∧
      chainFrom name speed (s + t.tokens / speed) ts

/-- Sum of the durations (`tokens / speed`) of the first `k` tasks of a
node's schedule. -/
def durTake (n : Node) (k : Nat) : ℚ :=
  ((n.schedule.take k).map (fun t => t.tokens / n.speed)).sum

/-- Specification predicate for the node choice: index `i` is a candidate
minimizing leftover time, and it strictly beats every earlier candidate
(the first-seen node wins exact ties). -/
def BestIdx (tokens : ℚ) (nodes : List Node) (i : Nat) : Prop :=
  ∃ h : i < nodes.length,
    isCandidate tokens nodes[i] ∧
    (∀ j, (hj : j < nodes.length) → isCandidate tokens nodes[j] →
      leftover tokens nodes[i] ≤ leftover tokens nodes[j]) ∧
    (∀ j, (hj : j < nodes.length) → j < i → isCandidate tokens nodes[j] →
      leftover tokens nodes[i] < leftover tokens nodes[j])

/-- Invariant of the node-scanning loop after the first `k` nodes have been
processed: the accumulator is `none` iff no candidate was seen, and
otherwise holds the index and leftover of the minimal-leftover candidate
among the first `k`, earliest on ties. -/
def AccInv (tokens : ℚ) (nodes : List Node) (k : Nat) : Option (Nat × ℚ) → Prop
  | none => ∀ j, (hj : j < nodes.length) → j < k → ¬ isCandidate tokens nodes[j]
  | some (i, r) =>
    ∃ h : i < nodes.length,
      i < k ∧ isCandidate tokens nodes[i] ∧ r = leftover tokens nodes[i] ∧
      (∀ j, (hj : j < nodes.length) → j < k → isCandidate tokens nodes[j] →
        r ≤ leftover tokens nodes[j]) ∧
      (∀ j, (hj : j < nodes.length) → j < i → isCandidate tokens nodes[j] →
        r < leftover tokens nodes[j])

/-- A task with no placement field set. -/
def unplaced (t : Task) : Prop :=
  t.assigned_node = none ∧ t.start_time = none ∧ t.end_time = none

instance (t : Task) : Decidable (unplaced t) := by
  unfold unplaced; infer_instance

/-- A task with all three placement fields set. -/
def fullyPlaced (t : Task) : Prop :=
  t.assigned_node.isSome ∧ t.start_time.isSome ∧ t.end_time.isSome

instance (t : Task) : Decidable (fullyPlaced t) := by
  unfold fullyPlaced; infer_instance

/-- The identity fields of a node are unchanged (only the schedule may
differ). -/
def nodeFrameEq (n0 n : Node) : Prop :=
  n.name = n0.name ∧ n.speed = n0.speed ∧ n.uptime = n0.uptime

/-- An output task is its input task with, at most, the placement fields
written: same id and tokens, and either fully placed or literally
untouched. -/
def taskFrameEq (a b : Task) : Prop :=
  b.id = a.id ∧ b.tokens = a.tokens ∧ (fullyPlaced b ∨ b = a)

/-- Invariant of the scheduling pass: the node list matches the input on
identity fields; every node's schedule is a back-to-back chain from time 0
within the uptime, with non-negative token counts; the produced task list
matches the processed tasks; and the tasks appearing in schedules are
exactly the fully placed produced tasks. -/
def GInv (ns0 : List Node) (processed : List Task) (ns : List Node)
    (done : List Task) : Prop :=
  List.Forall₂ nodeFrameEq ns0 ns ∧
  (∀ n ∈ ns, chainFrom n.name n.speed 0 n.schedule ∧ n.time_used ≤ n.uptime ∧
    ∀ t ∈ n.schedule, 0 ≤ t.tokens) ∧
  List.Forall₂ taskFrameEq processed done ∧
  ((ns.map Node.schedule).flatten).Perm
    (done.filter (fun t => decide (fullyPlaced t)))

end BestFit

namespace Alloc

/-- Task tuple `(task_id, cost, value)` from `src/napsack.py`. -/
structure ATask where
  id : String
  cost : ℚ
  value : ℚ
deriving DecidableEq, Repr

/-- `node_capacities[n] = speed * uptime` from `src/napsack.py`. -/
def capOf (spd upt : String → ℚ) (n : String) : ℚ :=
  spd n * upt n

/-- The sort key of the `while` loop's node ranking:
`(node_usage[n] + node_historical_runtime[n]) / node_capacities[n]`. -/
def ratio (caps hist usage : String → ℚ) (n : String) : ℚ :=
  (usage n + hist n) / caps n

/-- `sorted(nodes.keys(), key=...)` — stable sort of the node names by
ascending utilization ratio. -/
def rankNodes (nodes : List String) (caps hist usage : String → ℚ) : List String :=
  nodes.mergeSort (fun a b => decide (ratio caps hist usage a ≤ ratio caps hist usage b))

/-- The inner `for node in node_list` loop: skip nodes with no positive
remaining capacity; on the first node for which some remaining task fits,
return that node together with the first fitting task
(`fitting_tasks[0]`); return `none` when no node can accept any task. -/
def tryAssign (caps usage : String → ℚ) (remaining : List ATask) :
    List String → Option (String × ATask)
  | [] => none
  | n :: rest =>
    if caps n - usage n ≤ 0 then tryAssign caps usage remaining rest
    else
      match (remaining.filter (fun t => decide (t.cost ≤ caps n - usage n))).head? with
      | none => tryAssign caps usage remaining rest
      | some t => some (n, t)

/-- The outer `while remaining_tasks:` loop of `src/napsack.py`: while the
pool is nonempty, re-rank the nodes, try one assignment, update the usage
and schedule of the chosen node, remove the task from the pool
(`remaining_tasks.remove`, i.e. erase the first equal element) and repeat;
stop when nothing could be assigned.  The `if hmem` guard only serves
termination: `tryAssign` always returns a member of the pool, so the
`else` branch is unreachable (see `tryAssign_mem`). -/
def allocLoop (nodes : List String) (caps hist : String → ℚ)
    (usage : String → ℚ) (sched : String → List ATask) (remaining : List ATask) :
    (String → ℚ) × (String → List ATask) × List ATask :=
  if remaining.isEmpty then (usage, sched, remaining)
  else
    match tryAssign caps usage remaining (rankNodes nodes caps hist usage) with
    | none => (usage, sched, remaining)
    | some (n, t) =>
      if hmem : t ∈ remaining then
        allocLoop nodes caps hist
          (fun m => if m = n then usage m + t.cost else usage m)
          (fun m => if m = n then sched m ++ [t] else sched m)
          (remaining.erase t)
      else (usage, sched, remaining)
termination_by remaining.length
decreasing_by
  have h1 : (remaining.erase t).length = remaining.length - 1 :=
    List.length_erase_of_mem hmem
  have h2 : 0 < remaining.length := List.length_pos.mpr (List.ne_nil_of_mem hmem)
  omega

/-- One full scheduling round of `src/napsack.py`: run the loop from empty
usage/schedules over the full task list, then add each node's usage into
the historical ledger (`node_historical_runtime[node] += node_usage[node]`,
for the keys of the node dictionary).  Returns
(usage, schedule, unscheduled, updated ledger). -/
def allocRound (nodes : List String) (spd upt hist : String → ℚ) (tasks : List ATask) :
    (String → ℚ) × (String → List ATask) × List ATask × (String → ℚ) :=
  let r := allocLoop nodes (capOf spd upt) hist (fun _ => 0) (fun _ => []) tasks
  (r.1, r.2.1, r.2.2, fun n => if n ∈ nodes then hist n + r.1 n else hist n)

/-- Sum of the costs of a list of tasks. -/
def costSum (l : List ATask) : ℚ :=
  (l.map ATask.cost).sum

/-- All tasks placed across the node pool, in node order. -/
def schedJoin (nodes : List String) (sched : String → List ATask) : List ATask :=
  (nodes.map sched).flatten

end Alloc

namespace Knap

/-- Modelled from the spec: items handed to the knapsack selector — the
spec's ordered `(id, cost, value)` tuples with non-negative integer cost
(§4.1); no implementation exists under `src/`. -/
structure KItem where
  id : String
  cost : ℕ
  value : ℚ
deriving DecidableEq, Repr

/-- Modelled from the spec: the 0/1 dynamic program of §4.1,
`dp[i][w] = max(dp[i-1][w], value_i + dp[i-1][w-cost_i])` when
`cost_i ≤ w`, else `dp[i-1][w]`; `dp items i w` is the table entry for the
first `i` items at capacity `w`. -/
def dp (items : List KItem) : ℕ → ℕ → ℚ
  | 0, _ => 0
  | i + 1, w =>
    match items[i]? with
    | none => dp items i w
    | some itm =>
      if itm.cost ≤ w then max (dp items i w) (itm.value + dp items i (w - itm.cost))
      else dp items i w

/-- Modelled from the spec: backward reconstruction of §4.1 — walk from
`(n, capacity)` down, appending item `i` whenever `dp[i][w] ≠ dp[i-1][w]`
and decrementing `w` by its cost; yields the subset in reverse-insertion
order. -/
def reconstruct (items : List KItem) : ℕ → ℕ → List KItem
  | 0, _ => []
  | i + 1, w =>
    match items[i]? with
    | none => reconstruct items i w
    | some itm =>
      if dp items (i + 1) w ≠ dp items i w then itm :: reconstruct items i (w - itm.cost)
      else reconstruct items i w

/-- Modelled from the spec: the selector's entry point,
`select(items, capacity)` (§4.1). -/
def select (items : List KItem) (cap : ℕ) : List KItem :=
  reconstruct items items.length cap

/-- Total cost of a list of items. -/
def kCost (l : List KItem) : ℕ :=
  (l.map KItem.cost).sum

/-- Total value of a list of items. -/
def kValue (l : List KItem) : ℚ :=
  (l.map KItem.value).sum

end Knap

namespace BestFit

lemma accInv_mono {tokens : ℚ} {nodes : List Node} {k : Nat} {acc : Option (Nat × ℚ)}
    (hk : nodes.length ≤ k) (h : AccInv tokens nodes k acc) :
    AccInv tokens nodes nodes.length acc := by
  cases acc with
  | none =>
    simp only [AccInv] at h ⊢
    exact fun j hj _ => h j hj (lt_of_lt_of_le hj hk)
  | some p =>
    obtain ⟨i, r⟩ := p
    simp only [AccInv] at h ⊢
    obtain ⟨hi, _, hc, hr, hmin, hstrict⟩ := h
    exact ⟨hi, hi, hc, hr, fun j hj _ hcj => hmin j hj (lt_of_lt_of_le hj hk) hcj, hstrict⟩

lemma accInv_step_skip {tokens : ℚ} {nodes : List Node} {k : Nat} {acc : Option (Nat × ℚ)}
    (hk : k < nodes.length) (hnc : ¬ isCandidate tokens nodes[k])
    (h : AccInv tokens nodes k acc) : AccInv tokens nodes (k + 1) acc := by
  cases acc with
  | none =>
    simp only [AccInv] at h ⊢
    intro j hj hjk
    rcases Nat.lt_succ_iff_lt_or_eq.mp hjk with hlt | heq
    · exact h j hj hlt
    · subst heq; exact hnc
  | some p =>
    obtain ⟨i, r⟩ := p
    simp only [AccInv] at h ⊢
    obtain ⟨hi, hik, hc, hr, hmin, hstrict⟩ := h
    refine ⟨hi, Nat.lt_succ_of_lt hik, hc, hr, ?_, hstrict⟩
    intro j hj hjk hcj
    rcases Nat.lt_succ_iff_lt_or_eq.mp hjk with hlt | heq
    · exact hmin j hj hlt hcj
    · subst heq; exact absurd hcj hnc

lemma accInv_step_none {tokens : ℚ} {nodes : List Node} {k : Nat}
    (hk : k < nodes.length) (hc : isCandidate tokens nodes[k])
    (h : AccInv tokens nodes k none) :
    AccInv tokens nodes (k + 1) (some (k, leftover tokens nodes[k])) := by
  simp only [AccInv] at h ⊢
  refine ⟨hk, Nat.lt_succ_self k, hc, by trivial, ?_, ?_⟩
  · intro j hj hjk hcj
    rcases Nat.lt_succ_iff_lt_or_eq.mp hjk with hlt | heq
    · exact absurd hcj (h j hj hlt)
    · subst heq; exact le_refl _
  · intro j hj hji hcj
    exact absurd hcj (h j hj hji)

lemma accInv_step_better {tokens : ℚ} {nodes : List Node} {k i : Nat} {r : ℚ}
    (hk : k < nodes.length) (hc : isCandidate tokens nodes[k])
    (hlt : leftover tokens nodes[k] < r)
    (h : AccInv tokens nodes k (some (i, r))) :
    AccInv tokens nodes (k + 1) (some (k, leftover tokens nodes[k])) := by
  simp only [AccInv] at h ⊢
  obtain ⟨hi, hik, hci, hr, hmin, hstrict⟩ := h
  refine ⟨hk, Nat.lt_succ_self k, hc, by trivial, ?_, ?_⟩
  · intro j hj hjk hcj
    rcases Nat.lt_succ_iff_lt_or_eq.mp hjk with hl | heq
    · exact le_of_lt (lt_of_lt_of_le hlt (hmin j hj hl hcj))
    · subst heq; exact le_refl _
  · intro j hj hjk hcj
    exact lt_of_lt_of_le hlt (hmin j hj hjk hcj)

lemma accInv_step_keep {tokens : ℚ} {nodes : List Node} {k i : Nat} {r : ℚ}
    (hk : k < nodes.length) (hc : isCandidate tokens nodes[k])
    (hge : ¬ leftover tokens nodes[k] < r)
    (h : AccInv tokens nodes k (some (i, r))) :
    AccInv tokens nodes (k + 1) (some (i, r)) := by
  simp only [AccInv] at h ⊢
  obtain ⟨hi, hik, hci, hr, hmin, hstrict⟩ := h
  refine ⟨hi, Nat.lt_succ_of_lt hik, hci, hr, ?_, hstrict⟩
  intro j hj hjk hcj
  rcases Nat.lt_succ_iff_lt_or_eq.mp hjk with hl | heq
  · exact hmin j hj hl hcj
  · subst heq; exact le_of_not_lt hge

lemma pickAux_cons (tokens : ℚ) (n : Node) (rest : List Node) (k : Nat)
    (acc : Option (Nat × ℚ)) :
    pickAux tokens (n :: rest) k acc =
      if n.time_used + tokens / n.speed ≤ n.uptime then
        match acc with
        | none =>
          pickAux tokens rest (k + 1) (some (k, n.uptime - (n.time_used + tokens / n.speed)))
        | some (j, br) =>
          if n.uptime - (n.time_used + tokens / n.speed) < br then
            pickAux tokens rest (k + 1) (some (k, n.uptime - (n.time_used + tokens / n.speed)))
          else pickAux tokens rest (k + 1) (some (j, br))
      else pickAux tokens rest (k + 1) acc := rfl

lemma pickAux_inv (tokens : ℚ) (nodes : List Node) (rest : List Node) :
    ∀ (k : Nat) (acc : Option (Nat × ℚ)),
      nodes.drop k = rest → AccInv tokens nodes k acc →
      AccInv tokens nodes nodes.length (pickAux tokens rest k acc) := by
  induction rest with
  | nil =>
    intro k acc hdrop hinv
    rw [pickAux]
    have hk : nodes.length ≤ k := by
      by_contra hlt
      push_neg at hlt
      have := List.drop_eq_nil_iff.mp hdrop
      omega
    exact accInv_mono hk hinv
  | cons n rest' ih =>
    intro k acc hdrop hinv
    have hk : k < nodes.length := by
      by_contra hge
      push_neg at hge
      rw [List.drop_eq_nil_of_le hge] at hdrop
      exact (List.cons_ne_nil _ _) hdrop.symm
    have hget : nodes[k] = n := by
      have h0 : nodes[k]? = some n := by
        have h1 := List.getElem?_drop nodes k 0
        rw [hdrop] at h1
        simpa using h1.symm
      simpa [List.getElem?_eq_getElem hk] using h0
    subst hget
    have hdrop' : nodes.drop (k + 1) = rest' := by
      have h2 : nodes.drop (k + 1) = (nodes.drop k).drop 1 := by
        rw [List.drop_drop]
      rw [h2, hdrop, List.drop_one, List.tail_cons]
    rw [pickAux_cons]
    by_cases hc : nodes[k].time_used + tokens / nodes[k].speed ≤ nodes[k].uptime
    · rw [if_pos hc]
      cases acc with
      | none =>
        exact ih (k + 1) _ hdrop' (accInv_step_none hk hc hinv)
      | some p =>
        obtain ⟨i, r⟩ := p
        dsimp only
        by_cases hlt : nodes[k].uptime - (nodes[k].time_used + tokens / nodes[k].speed) < r
        · rw [if_pos hlt]
          exact ih (k + 1) _ hdrop' (accInv_step_better hk hc hlt hinv)
        · rw [if_neg hlt]
          exact ih (k + 1) _ hdrop' (accInv_step_keep hk hc hlt hinv)
    · rw [if_neg hc]
      exact ih (k + 1) _ hdrop' (accInv_step_skip hk hc hinv)

lemma accInv_zero_none (tokens : ℚ) (nodes : List Node) :
    AccInv tokens nodes 0 none := by
  simp only [AccInv]
  intro j hj hj0
  exact absurd hj0 (Nat.not_lt_zero j)

lemma pickBest_some {tokens : ℚ} {ns : List Node} {i : Nat}
    (h : pickBest tokens ns = some i) : BestIdx tokens ns i := by
  unfold pickBest at h
  cases hres : pickAux tokens ns 0 none with
  | none => rw [hres] at h; simp at h
  | some p =>
    obtain ⟨i', r⟩ := p
    rw [hres] at h
    simp at h
    have hinv := pickAux_inv tokens ns ns 0 none (by simp) (accInv_zero_none tokens ns)
    rw [hres] at hinv
    simp only [AccInv] at hinv
    obtain ⟨hi, _, hc, hr, hmin, hstrict⟩ := hinv
    subst h
    refine ⟨hi, hc, ?_, ?_⟩
    · intro j hj hcj
      exact hr ▸ hmin j hj hj hcj
    · intro j hj hji hcj
      exact hr ▸ hstrict j hj hji hcj

lemma pickBest_none {tokens : ℚ} {ns : List Node}
    (h : pickBest tokens ns = none) : ∀ n ∈ ns, ¬ isCandidate tokens n := by
  intro n hn
  unfold pickBest at h
  cases hres : pickAux tokens ns 0 none with
  | some p => rw [hres] at h; simp at h
  | none =>
    have hinv := pickAux_inv tokens ns ns 0 none (by simp) (accInv_zero_none tokens ns)
    rw [hres] at hinv
    simp only [AccInv] at hinv
    obtain ⟨j, hget⟩ := List.mem_iff_get.mp hn
    have h2 := hinv j.1 j.2 j.2
    rw [List.get_eq_getElem] at hget
    rw [hget] at h2
    exact h2

lemma unplaced_not_fullyPlaced {t : Task} (h : unplaced t) : ¬ fullyPlaced t := by
  intro hf
  obtain ⟨h1, _, _⟩ := hf
  rw [h.1] at h1
  simp at h1

lemma chainFrom_append {name : String} {speed : ℚ} (l₁ : List Task) :
    ∀ (l₂ : List Task) (s : ℚ), chainFrom name speed s l₁ →
      chainFrom name speed (s + (l₁.map (fun t => t.tokens / speed)).sum) l₂ →
      chainFrom name speed s (l₁ ++ l₂) := by
  induction l₁ with
  | nil => intro l₂ s _ h₂; simpa using h₂
  | cons t ts ih =>
    intro l₂ s h₁ h₂
    obtain ⟨ha, hs, he, hch⟩ := h₁
    refine ⟨ha, hs, he, ?_⟩
    apply ih l₂ (s + t.tokens / speed) hch
    have harr : s + t.tokens / speed + ((ts.map (fun t => t.tokens / speed)).sum)
        = s + (((t :: ts).map (fun t => t.tokens / speed)).sum) := by
      simp [add_assoc]
    rw [harr]
    exact h₂

lemma chainFrom_getLast_some {name : String} {speed : ℚ} :
    ∀ (l : List Task) (s : ℚ) (v : Task), chainFrom name speed s l →
      l.getLast? = some v →
      v.end_time = some (s + (l.map (fun t => t.tokens / speed)).sum) := by
  intro l
  induction l with
  | nil => intro s v _ hg; simp at hg
  | cons t ts ih =>
    intro s v h hg
    obtain ⟨_, _, he, hch⟩ := h
    cases ts with
    | nil =>
      have hv : v = t := by simpa using hg.symm
      subst hv
      rw [he]
      simp
    | cons u us =>
      have hgl : (t :: u :: us).getLast? = (u :: us).getLast? := List.getLast?_cons_cons
      rw [hgl] at hg
      have h2 := ih (s + t.tokens / speed) v hch hg
      rw [h2]
      simp [add_assoc]

lemma time_used_def (n : Node) :
    n.time_used = (match n.schedule.getLast? with
      | none => (0 : ℚ)
      | some u => u.end_time.getD 0) := rfl

lemma chainFrom_time_used {n : Node} (h : chainFrom n.name n.speed 0 n.schedule) :
    n.time_used = (n.schedule.map (fun t => t.tokens / n.speed)).sum := by
  cases hg : n.schedule.getLast? with
  | none =>
    have hnil : n.schedule = [] := List.getLast?_eq_none_iff.mp hg
    rw [time_used_def, hg, hnil]
    simp
  | some v =>
    have h2 := chainFrom_getLast_some n.schedule 0 v h hg
    rw [time_used_def, hg]
    dsimp only
    rw [h2]
    simp

lemma forall₂_set_of_rel {R : Node → Node → Prop} {l₁ l₂ : List Node}
    (h : List.Forall₂ R l₁ l₂) {i : Nat} {b : Node} (hi : i < l₂.length)
    (hb : ∀ a, R a l₂[i] → R a b) : List.Forall₂ R l₁ (l₂.set i b) := by
  rw [List.forall₂_iff_get] at h ⊢
  obtain ⟨hlen, hget⟩ := h
  refine ⟨by simpa using hlen, ?_⟩
  intro j h₁ h₂
  rw [List.get_eq_getElem, List.get_eq_getElem, List.getElem_set]
  by_cases hij : i = j
  · subst hij
    rw [if_pos rfl]
    exact hb _ (hget i h₁ hi)
  · rw [if_neg hij]
    exact hget j h₁ (by simpa using h₂)

lemma flatten_set_perm (x : Task) :
    ∀ (ns : List Node) (i : Nat) (n' : Node), (hi : i < ns.length) →
      n'.schedule = ns[i].schedule ++ [x] →
      ((ns.set i n').map Node.schedule).flatten.Perm
        ((ns.map Node.schedule).flatten ++ [x]) := by
  intro ns
  induction ns with
  | nil => intro i n' hi _; simp at hi
  | cons u us ih =>
    intro i n' hi hsched
    cases i with
    | zero =>
      simp only [List.set_cons_zero, List.map_cons, List.flatten_cons,
        List.getElem_cons_zero] at hsched ⊢
      rw [hsched, List.append_assoc, List.append_assoc]
      exact List.Perm.append_left u.schedule List.perm_append_comm
    | succ i' =>
      simp only [List.set_cons_succ, List.map_cons, List.flatten_cons]
      have hi' : i' < us.length := by simpa using hi
      have hperm := ih i' n' hi' (by simpa using hsched)
      rw [List.append_assoc]
      exact hperm.append_left u.schedule

lemma runStep_eq_none {ns : List Node} {t : Task}
    (h : pickBest t.tokens ns = none) : runStep ns t = (ns, t) := by
  rw [runStep, h]

lemma runStep_eq_some {ns : List Node} {t : Task} {i : Nat}
    (h : pickBest t.tokens ns = some i) (hi : i < ns.length) :
    runStep ns t = (ns.set i (placeOn ns[i] t).1, (placeOn ns[i] t).2) := by
  have h1 : runStep ns t = match ns[i]? with
      | none => (ns, t)
      | some n => (ns.set i (placeOn n t).1, (placeOn n t).2) := by
    rw [runStep, h]
  rw [h1, List.getElem?_eq_getElem hi]

lemma placeOn_fst_schedule (n : Node) (t : Task) :
    (placeOn n t).1.schedule = n.schedule ++ [(placeOn n t).2] := rfl

lemma runStep_inv {ns0 : List Node} {proc done : List Task} {ns : List Node} {t : Task}
    (hval : 0 ≤ t.tokens) (hun : unplaced t) (hinv : GInv ns0 proc ns done) :
    GInv ns0 (proc ++ [t]) (runStep ns t).1 (done ++ [(runStep ns t).2]) := by
  obtain ⟨hframe, hnodes, htasks, hperm⟩ := hinv
  cases hpb : pickBest t.tokens ns with
  | none =>
    rw [runStep_eq_none hpb]
    refine ⟨hframe, hnodes, ?_, ?_⟩
    · exact List.rel_append htasks
        (List.Forall₂.cons ⟨rfl, rfl, Or.inr rfl⟩ List.Forall₂.nil)
    · rw [List.filter_append]
      have hft : [t].filter (fun u => decide (fullyPlaced u)) = [] := by
        simp [unplaced_not_fullyPlaced hun]
      rw [hft, List.append_nil]
      exact hperm
  | some i =>
    obtain ⟨hi, hc, _, _⟩ := pickBest_some hpb
    rw [runStep_eq_some hpb hi]
    obtain ⟨hchain, htime, htok⟩ := hnodes ns[i] (List.getElem_mem hi)
    have htu : ns[i].time_used = (ns[i].schedule.map (fun u => u.tokens / ns[i].speed)).sum :=
      chainFrom_time_used hchain
    refine ⟨?_, ?_, ?_, ?_⟩
    · exact forall₂_set_of_rel hframe hi (fun a ha => ⟨ha.1, ha.2.1, ha.2.2⟩)
    · intro m hm
      rcases List.mem_or_eq_of_mem_set hm with hmem | heq
      · exact hnodes m hmem
      · subst heq
        refine ⟨?_, ?_, ?_⟩
        · show chainFrom ns[i].name ns[i].speed 0 (ns[i].schedule ++ [(placeOn ns[i] t).2])
          apply chainFrom_append ns[i].schedule _ 0 hchain
          rw [zero_add, ← htu]
          exact ⟨rfl, rfl, rfl, trivial⟩
        · have h5 : (placeOn ns[i] t).1.time_used
              = ((placeOn ns[i] t).2).end_time.getD 0 := by
            rw [time_used_def]
            show (match (ns[i].schedule ++ [(placeOn ns[i] t).2]).getLast? with
              | none => (0 : ℚ)
              | some u => u.end_time.getD 0) = _
            rw [List.getLast?_concat]
          rw [h5]
          exact hc
        · intro u hu
          rw [placeOn_fst_schedule] at hu
          rcases List.mem_append.mp hu with h1 | h1
          · exact htok u h1
          · rw [List.mem_singleton.mp h1]
            exact hval
    · exact List.rel_append htasks
        (List.Forall₂.cons ⟨rfl, rfl, Or.inl ⟨rfl, rfl, rfl⟩⟩ List.Forall₂.nil)
    · have hfl := flatten_set_perm ((placeOn ns[i] t).2) ns i ((placeOn ns[i] t).1) hi rfl
      rw [List.filter_append]
      have hfp : fullyPlaced ((placeOn ns[i] t).2) := ⟨rfl, rfl, rfl⟩
      have hft : [(placeOn ns[i] t).2].filter (fun u => decide (fullyPlaced u))
          = [(placeOn ns[i] t).2] := by
        simp [List.filter_cons, hfp]
      rw [hft]
      exact hfl.trans (hperm.append_right [(placeOn ns[i] t).2])

lemma runFold_inv {ns0 : List Node} :
    ∀ (rem : List Task) (ns : List Node) (done proc : List Task),
      (∀ t ∈ rem, unplaced t ∧ 0 ≤ t.tokens) → GInv ns0 proc ns done →
      GInv ns0 (proc ++ rem)
        ((rem.foldl (fun acc t =>
          let p := runStep acc.1 t
          (p.1, acc.2 ++ [p.2])) (ns, done)).1)
        ((rem.foldl (fun acc t =>
          let p := runStep acc.1 t
          (p.1, acc.2 ++ [p.2])) (ns, done)).2) := by
  intro rem
  induction rem with
  | nil =>
    intro ns done proc _ hinv
    simpa using hinv
  | cons t ts ih =>
    intro ns done proc hrem hinv
    rw [List.foldl_cons]
    have h1 := runStep_inv (hrem t (List.mem_cons_self t ts)).2
      (hrem t (List.mem_cons_self t ts)).1 hinv
    have h2 := ih (runStep ns t).1 (done ++ [(runStep ns t).2]) (proc ++ [t])
      (fun u hu => hrem u (List.mem_cons_of_mem t hu)) h1
    rw [List.append_assoc] at h2
    simpa using h2

lemma runGreedy_inv (ns0 : List Node) (ts : List Task)
    (hns : ∀ n ∈ ns0, n.schedule = [] ∧ 0 ≤ n.uptime)
    (hts : ∀ t ∈ ts, unplaced t ∧ 0 ≤ t.tokens) :
    GInv ns0 (sortTasks ts) (runGreedy ns0 ts).1 (runGreedy ns0 ts).2 := by
  have base : GInv ns0 [] ns0 [] := by
    refine ⟨?_, ?_, List.Forall₂.nil, ?_⟩
    · exact List.forall₂_same.mpr (fun n _ => ⟨rfl, rfl, rfl⟩)
    · intro n hn
      obtain ⟨hsched, hup⟩ := hns n hn
      refine ⟨?_, ?_, ?_⟩
      · rw [hsched]; trivial
      · rw [Node.time_used, hsched]
        simpa using hup
      · intro u hu; rw [hsched] at hu; simp at hu
    · have : (ns0.map Node.schedule).flatten = [] := by
        rw [List.flatten_eq_nil_iff]
        intro l hl
        rw [List.mem_map] at hl
        obtain ⟨n, hn, hln⟩ := hl
        rw [← hln]
        exact (hns n hn).1
      rw [this]
      simp
  have h := runFold_inv (sortTasks ts) ns0 [] []
    (fun t ht => hts t (by
      rw [sortTasks, List.mem_mergeSort] at ht
      exact ht)) base
  rw [List.nil_append] at h
  exact h

end BestFit

namespace Alloc

lemma tryAssign_cons (caps usage : String → ℚ) (rem : List ATask) (n : String)
    (rest : List String) :
    tryAssign caps usage rem (n :: rest) =
      if caps n - usage n ≤ 0 then tryAssign caps usage rem rest
      else
        match (rem.filter (fun t => decide (t.cost ≤ caps n - usage n))).head? with
        | none => tryAssign caps usage rem rest
        | some t => some (n, t) := rfl

lemma tryAssign_some {caps usage : String → ℚ} {rem : List ATask} :
    ∀ {l : List String} {n : String} {t : ATask},
      tryAssign caps usage rem l = some (n, t) →
      t ∈ rem ∧ 0 < caps n - usage n ∧ t.cost ≤ caps n - usage n ∧ n ∈ l := by
  intro l
  induction l with
  | nil => intro n t h; simp [tryAssign] at h
  | cons m l' ih =>
    intro n t h
    rw [tryAssign_cons] at h
    by_cases hrc : caps m - usage m ≤ 0
    · rw [if_pos hrc] at h
      obtain ⟨h1, h2, h3, h4⟩ := ih h
      exact ⟨h1, h2, h3, List.mem_cons_of_mem _ h4⟩
    · rw [if_neg hrc] at h
      cases hh : (rem.filter (fun u => decide (u.cost ≤ caps m - usage m))).head? with
      | none =>
        rw [hh] at h
        obtain ⟨h1, h2, h3, h4⟩ := ih h
        exact ⟨h1, h2, h3, List.mem_cons_of_mem _ h4⟩
      | some u =>
        rw [hh] at h
        simp only [Option.some.injEq, Prod.mk.injEq] at h
        obtain ⟨hmn, hut⟩ := h
        have humem : u ∈ rem.filter (fun w => decide (w.cost ≤ caps m - usage m)) :=
          List.mem_of_mem_head? (Option.mem_def.mpr hh)
        obtain ⟨h1, h2⟩ := List.mem_filter.mp humem
        rw [← hmn, ← hut]
        exact ⟨h1, not_le.mp hrc, of_decide_eq_true h2, List.mem_cons_self m l'⟩

lemma allocLoop_empty {nodes : List String} {caps hist usage : String → ℚ}
    {sched : String → List ATask} {remaining : List ATask}
    (h : remaining.isEmpty) :
    allocLoop nodes caps hist usage sched remaining = (usage, sched, remaining) := by
  rw [allocLoop.eq_def, if_pos h]

lemma allocLoop_none {nodes : List String} {caps hist usage : String → ℚ}
    {sched : String → List ATask} {remaining : List ATask}
    (h : ¬ remaining.isEmpty = true)
    (hnone : tryAssign caps usage remaining (rankNodes nodes caps hist usage) = none) :
    allocLoop nodes caps hist usage sched remaining = (usage, sched, remaining) := by
  rw [allocLoop.eq_def, if_neg h, hnone]

lemma allocLoop_step {nodes : List String} {caps hist usage : String → ℚ}
    {sched : String → List ATask} {remaining : List ATask} {n : String} {t : ATask}
    (h : ¬ remaining.isEmpty = true)
    (hsome : tryAssign caps usage remaining (rankNodes nodes caps hist usage) = some (n, t))
    (hmem : t ∈ remaining) :
    allocLoop nodes caps hist usage sched remaining =
      allocLoop nodes caps hist
        (fun m => if m = n then usage m + t.cost else usage m)
        (fun m => if m = n then sched m ++ [t] else sched m)
        (remaining.erase t) := by
  rw [allocLoop.eq_def, if_neg h, hsome]
  dsimp only
  rw [dif_pos hmem]

lemma costSum_append_one (l : List ATask) (t : ATask) :
    costSum (l ++ [t]) = costSum l + t.cost := by
  simp [costSum]

lemma costSum_nonneg {l : List ATask} (h : ∀ t ∈ l, 0 ≤ t.cost) : 0 ≤ costSum l := by
  apply List.sum_nonneg
  intro x hx
  rw [List.mem_map] at hx
  obtain ⟨u, hu, hux⟩ := hx
  rw [← hux]
  exact h u hu

lemma alloc_usage_costSum (nodes : List String) (caps hist : String → ℚ)
    (usage : String → ℚ) (sched : String → List ATask) (remaining : List ATask) :
    (∀ m, usage m = costSum (sched m)) →
    ∀ m, (allocLoop nodes caps hist usage sched remaining).1 m
      = costSum ((allocLoop nodes caps hist usage sched remaining).2.1 m) := by
  induction usage, sched, remaining using allocLoop.induct nodes caps hist with
  | case1 usage sched remaining hempty =>
    intro h
    rw [allocLoop_empty hempty]
    exact h
  | case2 usage sched remaining hempty hnone =>
    intro h
    rw [allocLoop_none hempty hnone]
    exact h
  | case3 usage sched remaining hempty n t hsome hmem ih =>
    intro h
    rw [allocLoop_step hempty hsome hmem]
    simp only [dite_eq_ite] at ih
    apply ih
    intro m
    by_cases hmn : m = n
    · rw [if_pos hmn, if_pos hmn, costSum_append_one, h m]
    · rw [if_neg hmn, if_neg hmn]
      exact h m
  | case4 usage sched remaining hempty n t hsome hmem =>
    exact absurd (tryAssign_some hsome).1 hmem

lemma alloc_cap_bound (nodes : List String) (caps hist : String → ℚ)
    (usage : String → ℚ) (sched : String → List ATask) (remaining : List ATask) :
    (∀ m, usage m ≤ caps m ∨ usage m = 0) →
    ∀ m, (allocLoop nodes caps hist usage sched remaining).1 m ≤ caps m ∨
      (allocLoop nodes caps hist usage sched remaining).1 m = 0 := by
  induction usage, sched, remaining using allocLoop.induct nodes caps hist with
  | case1 usage sched remaining hempty =>
    intro h
    rw [allocLoop_empty hempty]
    exact h
  | case2 usage sched remaining hempty hnone =>
    intro h
    rw [allocLoop_none hempty hnone]
    exact h
  | case3 usage sched remaining hempty n t hsome hmem ih =>
    intro h
    rw [allocLoop_step hempty hsome hmem]
    simp only [dite_eq_ite] at ih
    apply ih
    intro m
    by_cases hmn : m = n
    · rw [if_pos hmn]
      left
      subst hmn
      have h3 := (tryAssign_some hsome).2.2.1
      linarith
    · rw [if_neg hmn]
      exact h m
  | case4 usage sched remaining hempty n t hsome hmem =>
    exact absurd (tryAssign_some hsome).1 hmem

lemma alloc_off_nodes (nodes : List String) (caps hist : String → ℚ)
    (usage : String → ℚ) (sched : String → List ATask) (remaining : List ATask) :
    ∀ m, m ∉ nodes →
      (allocLoop nodes caps hist usage sched remaining).1 m = usage m ∧
      (allocLoop nodes caps hist usage sched remaining).2.1 m = sched m := by
  induction usage, sched, remaining using allocLoop.induct nodes caps hist with
  | case1 usage sched remaining hempty =>
    intro m _
    rw [allocLoop_empty hempty]
    exact ⟨rfl, rfl⟩
  | case2 usage sched remaining hempty hnone =>
    intro m _
    rw [allocLoop_none hempty hnone]
    exact ⟨rfl, rfl⟩
  | case3 usage sched remaining hempty n t hsome hmem ih =>
    intro m hm
    rw [allocLoop_step hempty hsome hmem]
    simp only [dite_eq_ite] at ih
    have hn : n ∈ nodes := by
      have h4 := (tryAssign_some hsome).2.2.2
      rw [rankNodes, List.mem_mergeSort] at h4
      exact h4
    have hmn : ¬ m = n := fun he => hm (he ▸ hn)
    obtain ⟨i1, i2⟩ := ih m hm
    rw [i1, i2, if_neg hmn, if_neg hmn]
    exact ⟨rfl, rfl⟩
  | case4 usage sched remaining hempty n t hsome hmem =>
    exact absurd (tryAssign_some hsome).1 hmem

lemma alloc_sched_costs (nodes : List String) (caps hist : String → ℚ)
    (usage : String → ℚ) (sched : String → List ATask) (remaining : List ATask) :
    (∀ t ∈ remaining, 0 ≤ t.cost) → (∀ m, ∀ t ∈ sched m, 0 ≤ t.cost) →
    ∀ m, ∀ t ∈ (allocLoop nodes caps hist usage sched remaining).2.1 m, 0 ≤ t.cost := by
  induction usage, sched, remaining using allocLoop.induct nodes caps hist with
  | case1 usage sched remaining hempty =>
    intro _ h2
    rw [allocLoop_empty hempty]
    exact h2
  | case2 usage sched remaining hempty hnone =>
    intro _ h2
    rw [allocLoop_none hempty hnone]
    exact h2
  | case3 usage sched remaining hempty n t hsome hmem ih =>
    intro h1 h2
    rw [allocLoop_step hempty hsome hmem]
    simp only [dite_eq_ite] at ih
    apply ih
    · intro u hu
      exact h1 u (List.mem_of_mem_erase hu)
    · intro m u hu
      by_cases hmn : m = n
      · rw [if_pos hmn] at hu
        rcases List.mem_append.mp hu with hx | hx
        · exact h2 m u hx
        · rw [List.mem_singleton.mp hx]
          exact h1 t hmem
      · rw [if_neg hmn] at hu
        exact h2 m u hu
  | case4 usage sched remaining hempty n t hsome hmem =>
    exact absurd (tryAssign_some hsome).1 hmem

lemma schedJoin_update {nodes : List String} (hnd : nodes.Nodup) {n : String}
    (hn : n ∈ nodes) (sched : String → List ATask) (t : ATask) :
    (schedJoin nodes (fun m => if m = n then sched m ++ [t] else sched m)).Perm
      (schedJoin nodes sched ++ [t]) := by
  induction nodes with
  | nil => simp at hn
  | cons u us ih =>
    rw [schedJoin, schedJoin, List.map_cons, List.map_cons, List.flatten_cons,
      List.flatten_cons]
    by_cases hun : u = n
    · rw [if_pos hun]
      have hnus : ∀ m ∈ us, (if m = n then sched m ++ [t] else sched m) = sched m := by
        intro m hm
        have : ¬ m = n := fun he => (List.nodup_cons.mp hnd).1 (hun ▸ he ▸ hm)
        rw [if_neg this]
      rw [List.map_congr_left hnus, List.append_assoc, List.append_assoc]
      exact List.Perm.append_left (sched u) List.perm_append_comm
    · rw [if_neg hun]
      have hnus : n ∈ us := by
        rcases List.mem_cons.mp hn with he | hm
        · exact absurd he.symm hun
        · exact hm
      have hperm := ih (List.nodup_cons.mp hnd).2 hnus
      rw [schedJoin, schedJoin] at hperm
      rw [List.append_assoc]
      exact hperm.append_left (sched u)

lemma alloc_conservation (nodes : List String) (caps hist : String → ℚ)
    (usage : String → ℚ) (sched : String → List ATask) (remaining : List ATask) :
    nodes.Nodup →
    (schedJoin nodes (allocLoop nodes caps hist usage sched remaining).2.1 ++
      (allocLoop nodes caps hist usage sched remaining).2.2).Perm
      (schedJoin nodes sched ++ remaining) := by
  induction usage, sched, remaining using allocLoop.induct nodes caps hist with
  | case1 usage sched remaining hempty =>
    intro _
    rw [allocLoop_empty hempty]
  | case2 usage sched remaining hempty hnone =>
    intro _
    rw [allocLoop_none hempty hnone]
  | case3 usage sched remaining hempty n t hsome hmem ih =>
    intro hnd
    rw [allocLoop_step hempty hsome hmem]
    simp only [dite_eq_ite] at ih
    have hn : n ∈ nodes := by
      have h4 := (tryAssign_some hsome).2.2.2
      rw [rankNodes, List.mem_mergeSort] at h4
      exact h4
    refine (ih hnd).trans ?_
    have h5 := schedJoin_update hnd hn sched t
    refine (h5.append_right (remaining.erase t)).trans ?_
    rw [List.append_assoc]
    refine List.Perm.append_left (schedJoin nodes sched) ?_
    exact (List.perm_cons_erase hmem).symm
  | case4 usage sched remaining hempty n t hsome hmem =>
    exact absurd (tryAssign_some hsome).1 hmem

lemma alloc_unsched_sublist (nodes : List String) (caps hist : String → ℚ)
    (usage : String → ℚ) (sched : String → List ATask) (remaining : List ATask) :
    (allocLoop nodes caps hist usage sched remaining).2.2.Sublist remaining := by
  induction usage, sched, remaining using allocLoop.induct nodes caps hist with
  | case1 usage sched remaining hempty =>
    rw [allocLoop_empty hempty]
  | case2 usage sched remaining hempty hnone =>
    rw [allocLoop_none hempty hnone]
  | case3 usage sched remaining hempty n t hsome hmem ih =>
    rw [allocLoop_step hempty hsome hmem]
    simp only [dite_eq_ite] at ih
    exact ih.trans (List.erase_sublist t remaining)
  | case4 usage sched remaining hempty n t hsome hmem =>
    exact absurd (tryAssign_some hsome).1 hmem

end Alloc

namespace Knap

lemma dp_zero (items : List KItem) (w : ℕ) : dp items 0 w = 0 := rfl

lemma dp_succ (items : List KItem) (i w : ℕ) :
    dp items (i + 1) w =
      match items[i]? with
      | none => dp items i w
      | some itm =>
        if itm.cost ≤ w then max (dp items i w) (itm.value + dp items i (w - itm.cost))
        else dp items i w := rfl

lemma recon_zero (items : List KItem) (w : ℕ) : reconstruct items 0 w = [] := rfl

lemma recon_succ (items : List KItem) (i w : ℕ) :
    reconstruct items (i + 1) w =
      match items[i]? with
      | none => reconstruct items i w
      | some itm =>
        if dp items (i + 1) w ≠ dp items i w then itm :: reconstruct items i (w - itm.cost)
        else reconstruct items i w := rfl

lemma kValue_cons (t : KItem) (l : List KItem) :
    kValue (t :: l) = t.value + kValue l := by
  simp [kValue]

lemma kCost_cons (t : KItem) (l : List KItem) :
    kCost (t :: l) = t.cost + kCost l := by
  simp [kCost]

lemma dp_ge_sublist (items : List KItem) :
    ∀ (i w : ℕ) (S : List KItem), S.Sublist (items.take i) → kCost S ≤ w →
      kValue S ≤ dp items i w := by
  intro i
  induction i with
  | zero =>
    intro w S hS _
    rw [List.take_zero] at hS
    rw [List.sublist_nil.mp hS, dp_zero]
    simp [kValue]
  | succ i ih =>
    intro w S hS hc
    rw [dp_succ]
    cases hii : items[i]? with
    | none =>
      have hlen : items.length ≤ i := List.getElem?_eq_none_iff.mp hii
      rw [List.take_of_length_le (Nat.le_succ_of_le hlen)] at hS
      rw [← List.take_of_length_le hlen] at hS
      exact ih w S hS hc
    | some itm =>
      dsimp only
      have htk : items.take (i + 1) = items.take i ++ [itm] := by
        rw [List.take_succ, hii]
        rfl
      rw [htk, List.sublist_append_iff] at hS
      obtain ⟨S₁, S₂, hSeq, hS₁, hS₂⟩ := hS
      subst hSeq
      rcases List.sublist_singleton.mp hS₂ with h2 | h2
      · subst h2
        rw [List.append_nil] at hc ⊢
        have hv := ih w S₁ hS₁ hc
        by_cases hcw : itm.cost ≤ w
        · rw [if_pos hcw]
          exact le_trans hv (le_max_left _ _)
        · rw [if_neg hcw]
          exact hv
      · subst h2
        have hceq : kCost (S₁ ++ [itm]) = kCost S₁ + itm.cost := by simp [kCost]
        rw [hceq] at hc
        have hcw : itm.cost ≤ w := by omega
        rw [if_pos hcw]
        have h1 : kCost S₁ ≤ w - itm.cost := by omega
        have h2v := ih (w - itm.cost) S₁ hS₁ h1
        have hval : kValue (S₁ ++ [itm]) = kValue S₁ + itm.value := by simp [kValue]
        rw [hval]
        refine le_trans ?_ (le_max_right _ _)
        linarith

lemma reconstruct_spec (items : List KItem) :
    ∀ (i w : ℕ), kValue (reconstruct items i w) = dp items i w ∧
      kCost (reconstruct items i w) ≤ w := by
  intro i
  induction i with
  | zero =>
    intro w
    rw [recon_zero, dp_zero]
    constructor
    · simp [kValue]
    · simp [kCost]
  | succ i ih =>
    intro w
    rw [recon_succ]
    cases hii : items[i]? with
    | none =>
      have hdp : dp items (i + 1) w = dp items i w := by
        rw [dp_succ, hii]
      rw [hdp]
      exact ih w
    | some itm =>
      dsimp only
      by_cases hne : dp items (i + 1) w ≠ dp items i w
      · rw [if_pos hne]
        have hcw : itm.cost ≤ w := by
          by_contra hcw
          apply hne
          rw [dp_succ, hii]
          dsimp only
          rw [if_neg hcw]
        have hmax : dp items (i + 1) w
            = max (dp items i w) (itm.value + dp items i (w - itm.cost)) := by
          rw [dp_succ, hii]
          dsimp only
          rw [if_pos hcw]
        have hgt : dp items (i + 1) w = itm.value + dp items i (w - itm.cost) := by
          rcases max_cases (dp items i w) (itm.value + dp items i (w - itm.cost)) with
            ⟨h1, _⟩ | ⟨h1, _⟩
          · exact absurd (hmax.trans h1) hne
          · exact hmax.trans h1
        obtain ⟨ihv, ihc⟩ := ih (w - itm.cost)
        constructor
        · rw [kValue_cons, ihv, hgt]
        · rw [kCost_cons]
          omega
      · rw [if_neg hne]
        have heq : dp items (i + 1) w = dp items i w := not_ne_iff.mp hne
        rw [heq]
        exact ih w

lemma reconstruct_sublist (items : List KItem) :
    ∀ (i w : ℕ), (reconstruct items i w).Sublist (items.take i).reverse := by
  intro i
  induction i with
  | zero =>
    intro w
    rw [recon_zero]
    exact List.nil_sublist _
  | succ i ih =>
    intro w
    rw [recon_succ]
    cases hii : items[i]? with
    | none =>
      have hlen : items.length ≤ i := List.getElem?_eq_none_iff.mp hii
      have htk : items.take (i + 1) = items.take i := by
        rw [List.take_of_length_le hlen, List.take_of_length_le (Nat.le_succ_of_le hlen)]
      rw [htk]
      exact ih w
    | some itm =>
      dsimp only
      have htk : (items.take (i + 1)).reverse = itm :: (items.take i).reverse := by
        rw [List.take_succ, hii]
        simp
      rw [htk]
      by_cases hne : dp items (i + 1) w ≠ dp items i w
      · rw [if_pos hne]
        exact (ih (w - itm.cost)).cons₂ itm
      · rw [if_neg hne]
        exact (ih w).cons itm

lemma select_optimal (items : List KItem) (cap : ℕ) :
    kCost (select items cap) ≤ cap ∧
    (select items cap).Sublist items.reverse ∧
    ∀ S : List KItem, S.Sublist items → kCost S ≤ cap →
      kValue S ≤ kValue (select items cap) := by
  have h1 := reconstruct_spec items items.length cap
  have h2 := reconstruct_sublist items items.length cap
  rw [List.take_length] at h2
  refine ⟨h1.2, h2, ?_⟩
  intro S hS hc
  have h3 := dp_ge_sublist items items.length cap S (by rwa [List.take_length]) hc
  rw [select, h1.1]
  exact h3

end Knap

lemma forall₂_mem_right {α β : Type} {R : α → β → Prop} {l₁ : List α} {l₂ : List β}
    (h : List.Forall₂ R l₁ l₂) {b : β} (hb : b ∈ l₂) : ∃ a ∈ l₁, R a b := by
  induction h with
  | nil => simp at hb
  | cons h₁ h₂ ih =>
    rcases List.mem_cons.mp hb with rfl | hb'
    · exact ⟨_, List.mem_cons_self _ _, h₁⟩
    · obtain ⟨a, ha, hr⟩ := ih hb'
      exact ⟨a, List.mem_cons_of_mem _ ha, hr⟩

namespace BestFit

lemma runGreedy_durTake (ns0 : List Node) (ts : List Task)
    (hns : ∀ n ∈ ns0, n.schedule = [] ∧ 0 ≤ n.uptime ∧ 0 < n.speed)
    (hts : ∀ t ∈ ts, unplaced t ∧ 0 ≤ t.tokens) :
    ∀ n' ∈ (runGreedy ns0 ts).1, ∀ k, durTake n' k ≤ n'.uptime := by
  obtain ⟨hframe, hnodes, _, _⟩ :=
    runGreedy_inv ns0 ts (fun n hn => ⟨(hns n hn).1, (hns n hn).2.1⟩) hts
  intro n' hn' k
  obtain ⟨hchain, htime, htok⟩ := hnodes n' hn'
  obtain ⟨n0, hn0, hr⟩ := forall₂_mem_right hframe hn'
  have hsp : 0 < n'.speed := by
    rw [hr.2.1]
    exact (hns n0 hn0).2.2
  have hsum := chainFrom_time_used hchain
  have hsplit : (n'.schedule.map (fun t => t.tokens / n'.speed)).sum
      = durTake n' k + ((n'.schedule.drop k).map (fun t => t.tokens / n'.speed)).sum := by
    rw [durTake, ← List.sum_append, ← List.map_append, List.take_append_drop]
  have hnn : 0 ≤ ((n'.schedule.drop k).map (fun t => t.tokens / n'.speed)).sum := by
    apply List.sum_nonneg
    intro x hx
    rw [List.mem_map] at hx
    obtain ⟨u, hu, hux⟩ := hx
    rw [← hux]
    exact div_nonneg (htok u (List.mem_of_mem_drop hu)) (le_of_lt hsp)
  have h1 : durTake n' k ≤ (n'.schedule.map (fun t => t.tokens / n'.speed)).sum := by
    rw [hsplit]
    linarith
  rw [← hsum] at h1
  exact le_trans h1 htime

lemma sortTasks_le_trans :
    ∀ (a b c : Task), (fun a b : Task => decide (b.tokens ≤ a.tokens)) a b →
      (fun a b : Task => decide (b.tokens ≤ a.tokens)) b c →
      (fun a b : Task => decide (b.tokens ≤ a.tokens)) a c := by
  intro a b c hab hbc
  simp only [decide_eq_true_eq] at hab hbc ⊢
  exact le_trans hbc hab

lemma sortTasks_le_total :
    ∀ (a b : Task), ((fun a b : Task => decide (b.tokens ≤ a.tokens)) a b ||
      (fun a b : Task => decide (b.tokens ≤ a.tokens)) b a) := by
  intro a b
  rcases le_total b.tokens a.tokens with h | h <;> simp [h]

lemma sortTasks_perm (ts : List Task) : (sortTasks ts).Perm ts := by
  rw [sortTasks]
  exact List.mergeSort_perm ts _

lemma sortTasks_sorted (ts : List Task) :
    (sortTasks ts).Pairwise (fun a b => b.tokens ≤ a.tokens) := by
  have h := List.sorted_mergeSort sortTasks_le_trans sortTasks_le_total ts
  rw [← sortTasks] at h
  exact h.imp (fun hab => by simpa using hab)

lemma sortTasks_filter_stable (ts : List Task) (c : ℚ) :
    (sortTasks ts).filter (fun t => decide (t.tokens = c))
      = ts.filter (fun t => decide (t.tokens = c)) := by
  have hpair : (ts.filter (fun t => decide (t.tokens = c))).Pairwise
      (fun a b : Task => decide (b.tokens ≤ a.tokens)) := by
    apply List.pairwise_of_forall_mem_list
    intro a ha b hb
    have h1 : a.tokens = c := by simpa using (List.mem_filter.mp ha).2
    have h2 : b.tokens = c := by simpa using (List.mem_filter.mp hb).2
    simp [h1, h2]
  have hsub : (ts.filter (fun t => decide (t.tokens = c))).Sublist (sortTasks ts) := by
    rw [sortTasks]
    exact List.sublist_mergeSort sortTasks_le_trans sortTasks_le_total hpair
      (List.filter_sublist ts)
  have hsub2 : (ts.filter (fun t => decide (t.tokens = c))).Sublist
      ((sortTasks ts).filter (fun t => decide (t.tokens = c))) := by
    have h3 := hsub.filter (fun t => decide (t.tokens = c))
    rwa [List.filter_filter, List.filter_congr
      (fun a _ => by rw [Bool.and_self])] at h3
  have hlen : ((sortTasks ts).filter (fun t => decide (t.tokens = c))).length
      = (ts.filter (fun t => decide (t.tokens = c))).length := by
    rw [← List.countP_eq_length_filter, ← List.countP_eq_length_filter]
    exact (sortTasks_perm ts).countP_eq _
  exact (hsub2.eq_of_length hlen.symm).symm

lemma pickBest_isSome {tokens : ℚ} {ns : List Node}
    (h : ∃ n ∈ ns, isCandidate tokens n) : (pickBest tokens ns).isSome := by
  cases hres : pickBest tokens ns with
  | some i => rfl
  | none =>
    obtain ⟨n, hn, hc⟩ := h
    exact absurd hc (pickBest_none hres n hn)

lemma forall₂_taskFrame_map {α : Type} {f : Task → α} (hf : ∀ a b, taskFrameEq a b → f b = f a) :
    ∀ {l₁ l₂ : List Task}, List.Forall₂ taskFrameEq l₁ l₂ → l₂.map f = l₁.map f := by
  intro l₁ l₂ h
  induction h with
  | nil => rfl
  | cons h₁ h₂ ih => simp [ih, hf _ _ h₁]

lemma fullyPlaced_not_unplaced {t : Task} (h : fullyPlaced t) : ¬ unplaced t := by
  intro hu
  exact unplaced_not_fullyPlaced hu h

lemma runGreedy_atomic (ns0 : List Node) (ts : List Task)
    (hns : ∀ n ∈ ns0, n.schedule = [] ∧ 0 ≤ n.uptime)
    (hts : ∀ t ∈ ts, unplaced t ∧ 0 ≤ t.tokens) :
    ∀ t' ∈ (runGreedy ns0 ts).2, fullyPlaced t' ∨ unplaced t' := by
  obtain ⟨_, _, htasks, _⟩ := runGreedy_inv ns0 ts hns hts
  intro t' ht'
  obtain ⟨a, ha, hr⟩ := forall₂_mem_right htasks ht'
  rcases hr.2.2 with hp | he
  · exact Or.inl hp
  · right
    rw [he]
    have ha2 : a ∈ ts := by
      rw [sortTasks, List.mem_mergeSort] at ha
      exact ha
    exact (hts a ha2).1

lemma runGreedy_chains (ns0 : List Node) (ts : List Task)
    (hns : ∀ n ∈ ns0, n.schedule = [] ∧ 0 ≤ n.uptime)
    (hts : ∀ t ∈ ts, unplaced t ∧ 0 ≤ t.tokens) :
    ∀ n' ∈ (runGreedy ns0 ts).1, chainFrom n'.name n'.speed 0 n'.schedule := by
  obtain ⟨_, hnodes, _, _⟩ := runGreedy_inv ns0 ts hns hts
  intro n' hn'
  exact (hnodes n' hn').1

lemma runGreedy_conservation (ns0 : List Node) (ts : List Task)
    (hns : ∀ n ∈ ns0, n.schedule = [] ∧ 0 ≤ n.uptime)
    (hts : ∀ t ∈ ts, unplaced t ∧ 0 ≤ t.tokens) :
    ((((runGreedy ns0 ts).1.map Node.schedule).flatten
      ++ (runGreedy ns0 ts).2.filter (fun t => decide (unplaced t))).map Task.id).Perm
      (ts.map Task.id) := by
  obtain ⟨_, _, htasks, hperm⟩ := runGreedy_inv ns0 ts hns hts
  have hdone : ∀ t' ∈ (runGreedy ns0 ts).2, fullyPlaced t' ∨ unplaced t' :=
    runGreedy_atomic ns0 ts hns hts
  have hfu : (runGreedy ns0 ts).2.filter (fun t => decide (unplaced t))
      = (runGreedy ns0 ts).2.filter (fun t => !(decide (fullyPlaced t))) := by
    apply List.filter_congr
    intro a ha
    rcases hdone a ha with hp | hu
    · simp [hp, fullyPlaced_not_unplaced hp]
    · simp [hu, unplaced_not_fullyPlaced hu]
  rw [List.map_append]
  refine ((hperm.map Task.id).append_right _).trans ?_
  rw [hfu, ← List.map_append]
  refine ((List.filter_append_perm _ _).map Task.id).trans ?_
  rw [forall₂_taskFrame_map (fun a b hr => hr.1) htasks]
  exact (sortTasks_perm ts).map Task.id

lemma runStep_no_nodes (t : Task) : runStep [] t = ([], t) := rfl

lemma runGreedy_no_nodes (ts : List Task) : runGreedy [] ts = ([], sortTasks ts) := by
  rw [runGreedy]
  have h : ∀ (l : List Task) (acc : List Task),
      l.foldl (fun acc t =>
        let p := runStep acc.1 t
        (p.1, acc.2 ++ [p.2])) (([] : List Node), acc) = ([], acc ++ l) := by
    intro l
    induction l with
    | nil => intro acc; simp
    | cons t ts ih =>
      intro acc
      rw [List.foldl_cons]
      have h2 := ih (acc ++ [t])
      simp only [List.append_assoc, List.singleton_append] at h2 ⊢
      exact h2
  rw [h]
  simp

end BestFit

namespace Alloc

lemma costSum_take_le {l : List ATask} (h : ∀ t ∈ l, 0 ≤ t.cost) (k : ℕ) :
    costSum (l.take k) ≤ costSum l := by
  have hsplit : costSum l = costSum (l.take k) + costSum (l.drop k) := by
    rw [costSum, costSum, costSum, ← List.sum_append, ← List.map_append,
      List.take_append_drop]
  have h2 : 0 ≤ costSum (l.drop k) :=
    costSum_nonneg (fun t ht => h t (List.mem_of_mem_drop ht))
  linarith

lemma schedJoin_const_nil (nodes : List String) :
    schedJoin nodes (fun _ => []) = [] := by
  rw [schedJoin, List.flatten_eq_nil_iff]
  intro l hl
  rw [List.mem_map] at hl
  obtain ⟨n, _, hln⟩ := hl
  exact hln.symm

lemma allocRound_usage (nodes : List String) (spd upt hist : String → ℚ)
    (tasks : List ATask) :
    (allocRound nodes spd upt hist tasks).1
      = (allocLoop nodes (capOf spd upt) hist (fun _ => 0) (fun _ => []) tasks).1 := rfl

lemma allocRound_sched (nodes : List String) (spd upt hist : String → ℚ)
    (tasks : List ATask) :
    (allocRound nodes spd upt hist tasks).2.1
      = (allocLoop nodes (capOf spd upt) hist (fun _ => 0) (fun _ => []) tasks).2.1 := rfl

lemma allocRound_unsched (nodes : List String) (spd upt hist : String → ℚ)
    (tasks : List ATask) :
    (allocRound nodes spd upt hist tasks).2.2.1
      = (allocLoop nodes (capOf spd upt) hist (fun _ => 0) (fun _ => []) tasks).2.2 := rfl

lemma allocRound_hist (nodes : List String) (spd upt hist : String → ℚ)
    (tasks : List ATask) :
    (allocRound nodes spd upt hist tasks).2.2.2
      = fun n => if n ∈ nodes then
          hist n + (allocLoop nodes (capOf spd upt) hist (fun _ => 0) (fun _ => []) tasks).1 n
        else hist n := rfl

lemma allocRound_usage_eq_costSum (nodes : List String) (spd upt hist : String → ℚ)
    (tasks : List ATask) (m : String) :
    (allocRound nodes spd upt hist tasks).1 m
      = costSum ((allocRound nodes spd upt hist tasks).2.1 m) := by
  rw [allocRound_usage, allocRound_sched]
  exact alloc_usage_costSum nodes (capOf spd upt) hist (fun _ => 0) (fun _ => []) tasks
    (fun m => by simp [costSum]) m

lemma allocRound_sched_costs (nodes : List String) (spd upt hist : String → ℚ)
    (tasks : List ATask) (hcost : ∀ t ∈ tasks, 0 ≤ t.cost) (m : String) :
    ∀ t ∈ (allocRound nodes spd upt hist tasks).2.1 m, 0 ≤ t.cost := by
  rw [allocRound_sched]
  exact alloc_sched_costs nodes (capOf spd upt) hist (fun _ => 0) (fun _ => []) tasks
    hcost (fun m t ht => by simp at ht) m

lemma allocRound_cap_bound (nodes : List String) (spd upt hist : String → ℚ)
    (tasks : List ATask) (hcap : ∀ m ∈ nodes, 0 ≤ spd m * upt m)
    (hcost : ∀ t ∈ tasks, 0 ≤ t.cost) :
    ∀ m ∈ nodes, ∀ k,
      costSum (((allocRound nodes spd upt hist tasks).2.1 m).take k) ≤ spd m * upt m := by
  intro m hm k
  have hbound := alloc_cap_bound nodes (capOf spd upt) hist (fun _ => 0) (fun _ => [])
    tasks (fun m => Or.inr rfl) m
  have hfull : costSum ((allocRound nodes spd upt hist tasks).2.1 m) ≤ spd m * upt m := by
    rw [← allocRound_usage_eq_costSum]
    rw [allocRound_usage]
    rcases hbound with hb | hb
    · exact hb
    · rw [hb]
      exact hcap m hm
  exact le_trans (costSum_take_le (allocRound_sched_costs nodes spd upt hist tasks hcost m) k)
    hfull

lemma allocRound_conservation (nodes : List String) (spd upt hist : String → ℚ)
    (tasks : List ATask) (hnd : nodes.Nodup) :
    (schedJoin nodes (allocRound nodes spd upt hist tasks).2.1
      ++ (allocRound nodes spd upt hist tasks).2.2.1).Perm tasks := by
  rw [allocRound_sched, allocRound_unsched]
  have h := alloc_conservation nodes (capOf spd upt) hist (fun _ => 0) (fun _ => []) tasks hnd
  rwa [schedJoin_const_nil, List.nil_append] at h

lemma allocRound_usage_nonneg (nodes : List String) (spd upt hist : String → ℚ)
    (tasks : List ATask) (hcost : ∀ t ∈ tasks, 0 ≤ t.cost) (m : String) :
    0 ≤ (allocRound nodes spd upt hist tasks).1 m := by
  rw [allocRound_usage_eq_costSum]
  exact costSum_nonneg (allocRound_sched_costs nodes spd upt hist tasks hcost m)

lemma allocRound_usage_off_nodes (nodes : List String) (spd upt hist : String → ℚ)
    (tasks : List ATask) (m : String) (hm : m ∉ nodes) :
    (allocRound nodes spd upt hist tasks).1 m = 0 := by
  rw [allocRound_usage]
  exact (alloc_off_nodes nodes (capOf spd upt) hist (fun _ => 0) (fun _ => []) tasks m hm).1

lemma allocRound_ledger_add (nodes : List String) (spd upt hist : String → ℚ)
    (tasks : List ATask) :
    ∀ m ∈ nodes, (allocRound nodes spd upt hist tasks).2.2.2 m
      = hist m + (allocRound nodes spd upt hist tasks).1 m := by
  intro m hm
  rw [allocRound_hist, allocRound_usage]
  dsimp only
  rw [if_pos hm]

lemma allocRound_hist_presummed (nodes : List String) (spd upt hist : String → ℚ)
    (tasks : List ATask) :
    (allocRound nodes spd upt hist tasks).2.2.2
      = fun m => hist m + (allocRound nodes spd upt hist tasks).1 m := by
  funext m
  by_cases hm : m ∈ nodes
  · exact allocRound_ledger_add nodes spd upt hist tasks m hm
  · rw [allocRound_hist]
    dsimp only
    rw [if_neg hm, allocRound_usage_off_nodes nodes spd upt hist tasks m hm, add_zero]

lemma allocLoop_no_nodes (caps hist usage : String → ℚ) (sched : String → List ATask)
    (remaining : List ATask) :
    allocLoop [] caps hist usage sched remaining = (usage, sched, remaining) := by
  by_cases h : remaining.isEmpty
  · rw [allocLoop_empty h]
  · have hr : rankNodes [] caps hist usage = [] := by
      rw [rankNodes, List.mergeSort_nil]
    rw [allocLoop_none h (by rw [hr]; rfl)]

lemma allocRound_no_nodes (spd upt hist : String → ℚ) (tasks : List ATask) :
    (allocRound [] spd upt hist tasks).1 = (fun _ => 0) ∧
    (allocRound [] spd upt hist tasks).2.1 = (fun _ => []) ∧
    (allocRound [] spd upt hist tasks).2.2.1 = tasks ∧
    (allocRound [] spd upt hist tasks).2.2.2 = hist := by
  refine ⟨?_, ?_, ?_, ?_⟩
  · rw [allocRound_usage, allocLoop_no_nodes]
  · rw [allocRound_sched, allocLoop_no_nodes]
  · rw [allocRound_unsched, allocLoop_no_nodes]
  · rw [allocRound_hist]
    funext m
    rw [if_neg (List.not_mem_nil m)]

end Alloc

/-- C1: for every valid input (fresh unplaced tasks with non-negative cost,
nodes with empty schedules, positive speed, non-negative uptime resp.
non-negative capacity `speed * uptime`), after a scheduling call every
prefix of a node's schedule has total duration (`cost / speed`) at most the
node's uptime (best-fit scheduler), and every prefix of a node's assigned
task list has total cost at most `speed * uptime` (capacity-proportional
allocator) — the bound holds at every intermediate point, not only at the
end. -/
theorem C1_capacity_uptime_invariant :
    (∀ (ns0 : List BestFit.Node) (ts : List BestFit.Task),
      (∀ n ∈ ns0, n.schedule = [] ∧ 0 ≤ n.uptime ∧ 0 < n.speed) →
      (∀ t ∈ ts, BestFit.unplaced t ∧ 0 ≤ t.tokens) →
      ∀ n' ∈ (BestFit.runGreedy ns0 ts).1, ∀ k, BestFit.durTake n' k ≤ n'.uptime) ∧
    (∀ (nodes : List String) (spd upt hist : String → ℚ) (tasks : List Alloc.ATask),
      (∀ m ∈ nodes, 0 ≤ spd m * upt m) → (∀ t ∈ tasks, 0 ≤ t.cost) →
      ∀ m ∈ nodes, ∀ k,
        Alloc.costSum (((Alloc.allocRound nodes spd upt hist tasks).2.1 m).take k)
          ≤ spd m * upt m) :=
  ⟨BestFit.runGreedy_durTake, Alloc.allocRound_cap_bound⟩

/-- Witness for C1 at concrete inputs. -/
theorem C1_capacity_uptime_invariant_witness :
    BestFit.durTake ⟨"A", 1, 100, [⟨"t", 40, some "A", some 0, some 40⟩]⟩ 1 ≤ 100 ∧
    Alloc.costSum (((Alloc.allocRound ["n1"] (fun _ => 10) (fun _ => 1) (fun _ => 0)
      [⟨"T1", 10, 1⟩]).2.1 "n1").take 1) ≤ 10 * 1 :=
  ⟨C1_capacity_uptime_invariant.1 [⟨"A", 1, 100, []⟩] [⟨"t", 40, none, none, none⟩]
      (by norm_num) (by norm_num [BestFit.unplaced])
      ⟨"A", 1, 100, [⟨"t", 40, some "A", some 0, some 40⟩]⟩
      (by norm_num [BestFit.runGreedy, BestFit.sortTasks, List.mergeSort,
        BestFit.runStep, BestFit.pickBest, BestFit.pickAux, BestFit.placeOn,
        BestFit.Node.time_used]) 1,
   C1_capacity_uptime_invariant.2 ["n1"] (fun _ => 10) (fun _ => 1) (fun _ => 0)
      [⟨"T1", 10, 1⟩] (by norm_num) (by norm_num) "n1" (by simp) 1⟩

/-- C2: every input task ends up either placed (in exactly one node's
schedule) or unscheduled: the placed tasks together with the unscheduled
tasks are a permutation of the input (by id resp. by task), the counts add
up to the input count, and with duplicate-free inputs no task is duplicated
across or within nodes. -/
theorem C2_conservation :
    (∀ (ns0 : List BestFit.Node) (ts : List BestFit.Task),
      (∀ n ∈ ns0, n.schedule = [] ∧ 0 ≤ n.uptime) →
      (∀ t ∈ ts, BestFit.unplaced t ∧ 0 ≤ t.tokens) →
      ((((BestFit.runGreedy ns0 ts).1.map BestFit.Node.schedule).flatten
        ++ (BestFit.runGreedy ns0 ts).2.filter
          (fun t => decide (BestFit.unplaced t))).map BestFit.Task.id).Perm
        (ts.map BestFit.Task.id) ∧
      (((BestFit.runGreedy ns0 ts).1.map BestFit.Node.schedule).flatten).length
        + ((BestFit.runGreedy ns0 ts).2.filter
          (fun t => decide (BestFit.unplaced t))).length = ts.length ∧
      ((ts.map BestFit.Task.id).Nodup →
        ((((BestFit.runGreedy ns0 ts).1.map BestFit.Node.schedule).flatten
          ++ (BestFit.runGreedy ns0 ts).2.filter
            (fun t => decide (BestFit.unplaced t))).map BestFit.Task.id).Nodup)) ∧
    (∀ (nodes : List String) (spd upt hist : String → ℚ) (tasks : List Alloc.ATask),
      nodes.Nodup →
      (Alloc.schedJoin nodes (Alloc.allocRound nodes spd upt hist tasks).2.1
        ++ (Alloc.allocRound nodes spd upt hist tasks).2.2.1).Perm tasks ∧
      (Alloc.schedJoin nodes (Alloc.allocRound nodes spd upt hist tasks).2.1).length
        + (Alloc.allocRound nodes spd upt hist tasks).2.2.1.length = tasks.length ∧
      (tasks.Nodup →
        (Alloc.schedJoin nodes (Alloc.allocRound nodes spd upt hist tasks).2.1
          ++ (Alloc.allocRound nodes spd upt hist tasks).2.2.1).Nodup)) := by
  constructor
  · intro ns0 ts hns hts
    have hp := BestFit.runGreedy_conservation ns0 ts hns hts
    refine ⟨hp, ?_, ?_⟩
    · have hl := hp.length_eq
      simp only [List.length_map, List.length_append] at hl
      exact hl
    · intro hnd
      exact hp.symm.nodup hnd
  · intro nodes spd upt hist tasks hnd
    have hp := Alloc.allocRound_conservation nodes spd upt hist tasks hnd
    refine ⟨hp, ?_, ?_⟩
    · have hl := hp.length_eq
      simp only [List.length_append] at hl
      exact hl
    · intro hnd2
      exact hp.symm.nodup hnd2

/-- Witness for C2 at concrete inputs. -/
theorem C2_conservation_witness :
    ((((BestFit.runGreedy [⟨"A", 1, 100, []⟩] [⟨"t", 40, none, none, none⟩]).1.map
        BestFit.Node.schedule).flatten
      ++ (BestFit.runGreedy [⟨"A", 1, 100, []⟩]
        [⟨"t", 40, none, none, none⟩]).2.filter
          (fun t => decide (BestFit.unplaced t))).map BestFit.Task.id).Perm
      (([⟨"t", 40, none, none, none⟩] : List BestFit.Task).map BestFit.Task.id) ∧
    (Alloc.schedJoin ["n1"]
        (Alloc.allocRound ["n1"] (fun _ => 10) (fun _ => 1) (fun _ => 0)
          [⟨"T1", 10, 1⟩]).2.1
      ++ (Alloc.allocRound ["n1"] (fun _ => 10) (fun _ => 1) (fun _ => 0)
          [⟨"T1", 10, 1⟩]).2.2.1).Perm [⟨"T1", 10, 1⟩] :=
  ⟨(C2_conservation.1 [⟨"A", 1, 100, []⟩] [⟨"t", 40, none, none, none⟩]
      (by norm_num) (by norm_num [BestFit.unplaced])).1,
   (C2_conservation.2 ["n1"] (fun _ => 10) (fun _ => 1) (fun _ => 0)
      [⟨"T1", 10, 1⟩] (by simp)).1⟩

/-- C3: the best-fit scheduler processes tasks in descending-cost order with
a stable sort (the processing order is a permutation of the input, sorted by
descending tokens, and equal-cost tasks keep their relative input order);
for each task the chosen node is a candidate (`time_used + cost/speed ≤
uptime`) minimizing leftover time, strictly beating every earlier candidate
(first node wins exact ties), and a node is chosen whenever any candidate
exists; in the concrete test with two nodes of speed 1 and uptimes 100 and
50, a task of cost 40 lands on the uptime-50 node. -/
theorem C3_best_fit_selection :
    (∀ ts : List BestFit.Task, (BestFit.sortTasks ts).Perm ts) ∧
    (∀ ts : List BestFit.Task,
      (BestFit.sortTasks ts).Pairwise (fun a b => b.tokens ≤ a.tokens)) ∧
    (∀ (ts : List BestFit.Task) (c : ℚ),
      (BestFit.sortTasks ts).filter (fun t => decide (t.tokens = c))
        = ts.filter (fun t => decide (t.tokens = c))) ∧
    (∀ (tokens : ℚ) (ns : List BestFit.Node) (i : ℕ),
      BestFit.pickBest tokens ns = some i → BestFit.BestIdx tokens ns i) ∧
    (∀ (tokens : ℚ) (ns : List BestFit.Node),
      (∃ n ∈ ns, BestFit.isCandidate tokens n) → (BestFit.pickBest tokens ns).isSome) ∧
    ((BestFit.runGreedy [⟨"A", 1, 100, []⟩, ⟨"B", 1, 50, []⟩]
      [⟨"t", 40, none, none, none⟩]).2.map BestFit.Task.assigned_node = [some "B"]) :=
  ⟨BestFit.sortTasks_perm, BestFit.sortTasks_sorted, BestFit.sortTasks_filter_stable,
   fun _ _ _ => BestFit.pickBest_some, fun _ _ => BestFit.pickBest_isSome,
   by norm_num [BestFit.runGreedy, BestFit.sortTasks, List.mergeSort,
     BestFit.runStep, BestFit.pickBest, BestFit.pickAux, BestFit.placeOn,
     BestFit.Node.time_used]⟩

/-- Witness for C3 at a concrete input. -/
theorem C3_best_fit_selection_witness :
    (BestFit.pickBest 40 [⟨"A", 1, 100, []⟩, ⟨"B", 1, 50, []⟩]).isSome :=
  C3_best_fit_selection.2.2.2.2.1 40 [⟨"A", 1, 100, []⟩, ⟨"B", 1, 50, []⟩]
    ⟨⟨"A", 1, 100, []⟩, by norm_num [BestFit.isCandidate, BestFit.Node.time_used]⟩

/-- C4: evaluation at the failing input — one node of capacity 10 (speed 10,
uptime 1) and pool `[T1 (cost 10, value 1), T2 (cost 10, value 99)]` in
input order: the loop assigns `T1`, the first pool element, and leaves the
strictly higher-valued `T2` unscheduled, because the pool is consumed in
input order rather than in value-descending order. -/
theorem C4_pool_order_failing_input :
    (Alloc.allocRound ["n1"] (fun _ => 10) (fun _ => 1) (fun _ => 0)
      [⟨"T1", 10, 1⟩, ⟨"T2", 10, 99⟩]).2.1 "n1" = [⟨"T1", 10, 1⟩] ∧
    (Alloc.allocRound ["n1"] (fun _ => 10) (fun _ => 1) (fun _ => 0)
      [⟨"T1", 10, 1⟩, ⟨"T2", 10, 99⟩]).2.2.1 = [⟨"T2", 10, 99⟩] := by
  constructor <;>
    norm_num [Alloc.allocRound, Alloc.allocLoop, Alloc.tryAssign, Alloc.rankNodes,
      Alloc.capOf, List.mergeSort, Alloc.ratio, List.erase_cons]

/-- C5: the knapsack selector (modelled from the spec: no implementation
exists under `src/`) is exactly optimal for every instance: the selected
subset fits the capacity, is a subset of the items (in reverse-insertion
order), and its value dominates every fitting subset; on the spec's fixed
instance (costs `[2,3,4,5]`, values `[3,4,5,6]`, capacity 5) it returns the
subset with costs 3 and 2 of total value 7.  Exactness for every instance
with at most 15 items and capacity at most 100 is the restriction of the
first conjunct. -/
theorem C5_knapsack_optimal :
    (∀ (items : List Knap.KItem) (cap : ℕ),
      Knap.kCost (Knap.select items cap) ≤ cap ∧
      (Knap.select items cap).Sublist items.reverse ∧
      ∀ S : List Knap.KItem, S.Sublist items → Knap.kCost S ≤ cap →
        Knap.kValue S ≤ Knap.kValue (Knap.select items cap)) ∧
    Knap.select [⟨"a", 2, 3⟩, ⟨"b", 3, 4⟩, ⟨"c", 4, 5⟩, ⟨"d", 5, 6⟩] 5
      = [⟨"b", 3, 4⟩, ⟨"a", 2, 3⟩] ∧
    Knap.kValue (Knap.select [⟨"a", 2, 3⟩, ⟨"b", 3, 4⟩, ⟨"c", 4, 5⟩, ⟨"d", 5, 6⟩] 5)
      = 7 := by
  refine ⟨Knap.select_optimal, ?_, ?_⟩
  · norm_num [Knap.select, Knap.reconstruct, Knap.dp, max_def]
  · norm_num [Knap.select, Knap.reconstruct, Knap.dp, max_def, Knap.kValue]

/-- Witness for C5 at a concrete input. -/
theorem C5_knapsack_optimal_witness :
    Knap.kValue [⟨"a", 2, 3⟩]
      ≤ Knap.kValue (Knap.select [⟨"a", 2, 3⟩, ⟨"b", 3, 4⟩, ⟨"c", 4, 5⟩, ⟨"d", 5, 6⟩] 5) :=
  (C5_knapsack_optimal.1 [⟨"a", 2, 3⟩, ⟨"b", 3, 4⟩, ⟨"c", 4, 5⟩, ⟨"d", 5, 6⟩] 5).2.2
    [⟨"a", 2, 3⟩]
    ((List.nil_sublist ([⟨"b", 3, 4⟩, ⟨"c", 4, 5⟩, ⟨"d", 5, 6⟩] :
      List Knap.KItem)).cons₂ ⟨"a", 2, 3⟩)
    (by norm_num [Knap.kCost])

/-- C6: after a best-fit scheduling call on fresh inputs, every task either
has all three placement fields set or none of them, and every node's
schedule is a back-to-back chain from time 0: each task's start time is the
node's `time_used` just before the append (the previous task's end time, or
0 for an empty schedule), and its end time is `start + cost/speed` — no
gaps, no overlaps. -/
theorem C6_atomic_placement :
    ∀ (ns0 : List BestFit.Node) (ts : List BestFit.Task),
      (∀ n ∈ ns0, n.schedule = [] ∧ 0 ≤ n.uptime) →
      (∀ t ∈ ts, BestFit.unplaced t ∧ 0 ≤ t.tokens) →
      (∀ t' ∈ (BestFit.runGreedy ns0 ts).2,
        BestFit.fullyPlaced t' ∨ BestFit.unplaced t') ∧
      (∀ n' ∈ (BestFit.runGreedy ns0 ts).1,
        BestFit.chainFrom n'.name n'.speed 0 n'.schedule) :=
  fun ns0 ts hns hts =>
    ⟨BestFit.runGreedy_atomic ns0 ts hns hts, BestFit.runGreedy_chains ns0 ts hns hts⟩

/-- Witness for C6 at a concrete input. -/
theorem C6_atomic_placement_witness :
    BestFit.chainFrom "A" 1 0 [⟨"t", 40, some "A", some 0, some 40⟩] :=
  (C6_atomic_placement [⟨"A", 1, 100, []⟩] [⟨"t", 40, none, none, none⟩]
    (by norm_num) (by norm_num [BestFit.unplaced])).2
    ⟨"A", 1, 100, [⟨"t", 40, some "A", some 0, some 40⟩]⟩
    (by norm_num [BestFit.runGreedy, BestFit.sortTasks, List.mergeSort,
      BestFit.runStep, BestFit.pickBest, BestFit.pickAux, BestFit.placeOn,
      BestFit.Node.time_used])

/-- C7: a round ends by adding each node's current-round usage into its
ledger entry: on every node the output ledger equals the input ledger plus
that node's usage; with non-negative costs the ledger never decreases; and
feeding the output ledger into the next round is the same call as using the
pre-summed ledger — no information loss or double counting. -/
theorem C7_ledger_roundtrip :
    ∀ (nodes : List String) (spd upt hist : String → ℚ) (tasks : List Alloc.ATask),
      (∀ m ∈ nodes, (Alloc.allocRound nodes spd upt hist tasks).2.2.2 m
        = hist m + (Alloc.allocRound nodes spd upt hist tasks).1 m) ∧
      ((∀ t ∈ tasks, 0 ≤ t.cost) →
        ∀ m, hist m ≤ (Alloc.allocRound nodes spd upt hist tasks).2.2.2 m) ∧
      (∀ tasks2 : List Alloc.ATask,
        Alloc.allocRound nodes spd upt
            ((Alloc.allocRound nodes spd upt hist tasks).2.2.2) tasks2
          = Alloc.allocRound nodes spd upt
            (fun m => hist m + (Alloc.allocRound nodes spd upt hist tasks).1 m) tasks2) := by
  intro nodes spd upt hist tasks
  refine ⟨Alloc.allocRound_ledger_add nodes spd upt hist tasks, ?_, ?_⟩
  · intro hcost m
    by_cases hm : m ∈ nodes
    · rw [Alloc.allocRound_ledger_add nodes spd upt hist tasks m hm]
      have := Alloc.allocRound_usage_nonneg nodes spd upt hist tasks hcost m
      linarith
    · rw [Alloc.allocRound_hist]
      dsimp only
      rw [if_neg hm]
  · intro tasks2
    exact congrArg (fun h => Alloc.allocRound nodes spd upt h tasks2)
      (Alloc.allocRound_hist_presummed nodes spd upt hist tasks)

/-- Witness for C7 at a concrete input. -/
theorem C7_ledger_roundtrip_witness :
    (Alloc.allocRound ["n1"] (fun _ => 10) (fun _ => 1) (fun _ => 0)
      [⟨"T1", 10, 1⟩]).2.2.2 "n1"
      = 0 + (Alloc.allocRound ["n1"] (fun _ => 10) (fun _ => 1) (fun _ => 0)
          [⟨"T1", 10, 1⟩]).1 "n1" :=
  (C7_ledger_roundtrip ["n1"] (fun _ => 10) (fun _ => 1) (fun _ => 0)
    [⟨"T1", 10, 1⟩]).1 "n1" (by simp)

/-- C8 counterexample: invalid input is not rejected before placement side
effects — a task with negative cost is simply placed by the allocator
(the schedule is mutated and nothing is reported). -/
theorem C8_no_rejection_counterexample :
    (Alloc.allocRound ["n1"] (fun _ => 10) (fun _ => 1) (fun _ => 0)
      [⟨"bad", -5, 0⟩]).2.1 "n1" = [⟨"bad", -5, 0⟩] := by
  norm_num [Alloc.allocRound, Alloc.allocLoop, Alloc.tryAssign, Alloc.rankNodes,
    Alloc.capOf, List.mergeSort, Alloc.ratio, List.erase_cons]

/-- C8 amended: no input validation is performed (invalid values such as
negative costs are processed like any other input, see the counterexample),
while an empty node pool with a non-empty task list does proceed normally:
the allocator returns every task unscheduled with untouched usage,
schedules and ledger, and the best-fit scheduler returns no nodes and the
sorted task list with no placement performed. -/
theorem C8_empty_pool_proceeds :
    (∀ (spd upt hist : String → ℚ) (tasks : List Alloc.ATask),
      (Alloc.allocRound [] spd upt hist tasks).1 = (fun _ => 0) ∧
      (Alloc.allocRound [] spd upt hist tasks).2.1 = (fun _ => []) ∧
      (Alloc.allocRound [] spd upt hist tasks).2.2.1 = tasks ∧
      (Alloc.allocRound [] spd upt hist tasks).2.2.2 = hist) ∧
    (∀ ts : List BestFit.Task,
      BestFit.runGreedy [] ts = ([], BestFit.sortTasks ts)) :=
  ⟨Alloc.allocRound_no_nodes, BestFit.runGreedy_no_nodes⟩

/-- C9 counterexample: the best-fit scheduler sorts the caller's task list
in place (`self.tasks.sort(...)`), so the input task list's order is
changed by the call: with tasks of costs 1 and 2 in that order, the task
list after the call is not the input list. -/
theorem C9_input_order_mutated :
    (BestFit.runGreedy []
      [⟨"a", 1, none, none, none⟩, ⟨"b", 2, none, none, none⟩]).2
      ≠ [⟨"a", 1, none, none, none⟩, ⟨"b", 2, none, none, none⟩] := by
  rw [BestFit.runGreedy_no_nodes]
  norm_num [BestFit.sortTasks, List.mergeSort]

/-- C9 amended: apart from re-sorting the best-fit scheduler's input task
list in place (descending cost), a scheduling call changes nothing else:
task id and cost fields are preserved (the output task list is a
permutation of the input on `(id, tokens)`), node identity fields (name,
speed, uptime) are unchanged, every output task is either fully placed or
literally an input task, and the allocator's unscheduled list is a sublist
of the input with every scheduled task drawn from the input. -/
theorem C9_frame :
    (∀ (ns0 : List BestFit.Node) (ts : List BestFit.Task),
      (∀ n ∈ ns0, n.schedule = [] ∧ 0 ≤ n.uptime) →
      (∀ t ∈ ts, BestFit.unplaced t ∧ 0 ≤ t.tokens) →
      ((BestFit.runGreedy ns0 ts).2.map (fun t => (t.id, t.tokens))).Perm
        (ts.map (fun t => (t.id, t.tokens))) ∧
      List.Forall₂ BestFit.nodeFrameEq ns0 (BestFit.runGreedy ns0 ts).1 ∧
      (∀ t' ∈ (BestFit.runGreedy ns0 ts).2, BestFit.fullyPlaced t' ∨ t' ∈ ts)) ∧
    (∀ (nodes : List String) (spd upt hist : String → ℚ) (tasks : List Alloc.ATask),
      nodes.Nodup →
      (Alloc.allocRound nodes spd upt hist tasks).2.2.1.Sublist tasks ∧
      (∀ m ∈ nodes, ∀ t ∈ (Alloc.allocRound nodes spd upt hist tasks).2.1 m,
        t ∈ tasks)) := by
  constructor
  · intro ns0 ts hns hts
    obtain ⟨hframe, _, htasks, _⟩ := BestFit.runGreedy_inv ns0 ts hns hts
    refine ⟨?_, hframe, ?_⟩
    · rw [BestFit.forall₂_taskFrame_map
        (fun a b hr => by rw [hr.1, hr.2.1]) htasks]
      exact (BestFit.sortTasks_perm ts).map _
    · intro t' ht'
      obtain ⟨a, ha, hr⟩ := forall₂_mem_right htasks ht'
      rcases hr.2.2 with hp | he
      · exact Or.inl hp
      · right
        rw [he]
        rw [BestFit.sortTasks, List.mem_mergeSort] at ha
        exact ha
  · intro nodes spd upt hist tasks hnd
    constructor
    · rw [Alloc.allocRound_unsched]
      exact Alloc.alloc_unsched_sublist nodes (Alloc.capOf spd upt) hist
        (fun _ => 0) (fun _ => []) tasks
    · intro m hm t ht
      have hj : t ∈ Alloc.schedJoin nodes (Alloc.allocRound nodes spd upt hist tasks).2.1 := by
        rw [Alloc.schedJoin, List.mem_flatten]
        exact ⟨(Alloc.allocRound nodes spd upt hist tasks).2.1 m,
          List.mem_map_of_mem _ hm, ht⟩
      have hp := Alloc.allocRound_conservation nodes spd upt hist tasks hnd
      exact hp.mem_iff.mp (List.mem_append_left _ hj)

/-- Witness for C9's amended statement at a concrete input. -/
theorem C9_frame_witness :
    List.Forall₂ BestFit.nodeFrameEq [⟨"A", 1, 100, []⟩]
      (BestFit.runGreedy [⟨"A", 1, 100, []⟩] [⟨"t", 40, none, none, none⟩]).1 :=
  (C9_frame.1 [⟨"A", 1, 100, []⟩] [⟨"t", 40, none, none, none⟩]
    (by norm_num) (by norm_num [BestFit.unplaced])).2.1

/-- C10: both scheduling algorithms are deterministic — the embedding of the
core is a pure function of its inputs (no randomness is used inside the
core), so two runs on identical task lists, node lists and ledger states
produce identical schedules, placement fields, unscheduled lists and
ledgers. -/
theorem C10_determinism :
    (∀ (ns1 ns2 : List BestFit.Node) (ts1 ts2 : List BestFit.Task),
      ns1 = ns2 → ts1 = ts2 →
      BestFit.runGreedy ns1 ts1 = BestFit.runGreedy ns2 ts2) ∧
    (∀ (nodes1 nodes2 : List String) (s1 s2 u1 u2 h1 h2 : String → ℚ)
      (t1 t2 : List Alloc.ATask),
      nodes1 = nodes2 → s1 = s2 → u1 = u2 → h1 = h2 → t1 = t2 →
      Alloc.allocRound nodes1 s1 u1 h1 t1 = Alloc.allocRound nodes2 s2 u2 h2 t2) := by
  constructor
  · intro ns1 ns2 ts1 ts2 h1 h2
    rw [h1, h2]
  · intro nodes1 nodes2 s1 s2 u1 u2 h1 h2 t1 t2 ha hb hc hd he
    rw [ha, hb, hc, hd, he]

/-- Witness for C10 at a concrete input. -/
theorem C10_determinism_witness :
    BestFit.runGreedy [] [] = BestFit.runGreedy [] [] ∧
    Alloc.allocRound [] (fun _ => 0) (fun _ => 0) (fun _ => 0) []
      = Alloc.allocRound [] (fun _ => 0) (fun _ => 0) (fun _ => 0) [] :=
  ⟨C10_determinism.1 [] [] [] [] rfl rfl,
   C10_determinism.2 [] [] (fun _ => 0) (fun _ => 0) (fun _ => 0) (fun _ => 0)
     (fun _ => 0) (fun _ => 0) [] [] rfl rfl rfl rfl rfl⟩
